import Mathlib

/-!
# Verification development for `eatiht` (`eatiht/eatiht.py`)

Shallow embedding of the article-extraction pipeline:

* strings are `List Char` (`Str`);
* the regex `bracket_pattern = re.compile('(\[\d*\])')` and
  `bracket_pattern.sub('', t)` become `bracket_sub`;
* the verbose regex `sentence_token_pattern` and `re.split` become
  `splitSentences` (a left-to-right scan: a split point is a whitespace run
  whose preceding character is `.`/`!`/`?`, or a quote preceded by one of
  those, and that is not immediately preceded by one of the abbreviations
  `Mr.`, `Mrs.`, `Jr.`, `Dr.`, `Prof.`, `Sr.` case-insensitively; the
  whitespace run is consumed);
* the HTML tree, the XPath candidate query `TEXT_FINDER_XPATH`, lxml's
  `getpath` addresses, `get_sentence_xpath_tuples`,
  `get_xpath_frequency_distribution` (`Counter.most_common`, i.e. a stable
  descending sort over first-insertion-ordered keys) and `extract` are
  embedded below.

Python's `IndexError` (raised by `[0]` on an empty ranking in `extract`) is
modelled by `Except.error PyError.indexError`.
-/

namespace Eatiht

abbrev Str := List Char

/-! ## Character classes used by the regexes -/

/-- Python's `\s` on ASCII: space, tab, newline, carriage return,
vertical tab, form feed. -/
def isSpace (c : Char) : Bool :=
  decide (c = ' ' ∨ c = '\t' ∨ c = '\n' ∨ c = '\r' ∨ c = '\x0b' ∨ c = '\x0c')

/-- The character class `[.!?]` of `sentence_token_pattern`. -/
def sentencePunct (c : Char) : Bool :=
  decide (c = '.' ∨ c = '!' ∨ c = '?')

/-- The character class `['"]` of `sentence_token_pattern`. -/
def quoteChar (c : Char) : Bool :=
  decide (c = '\'' ∨ c = '"')

/-- The list `sentence_ending = ['.', '"', '?', '!', "'"]` from the source. -/
def sentence_ending : List Char := ['.', '"', '?', '!', '\'']

/-- Membership of `c` in the terminal characters `sentence_ending`. -/
def isEnding (c : Char) : Bool := decide (c ∈ sentence_ending)

/-- The test `s.endswith(tuple(sentence_ending))`: the last character of `s` is a
terminal character (false for the empty string). -/
def endsTerminal (s : Str) : Bool :=
  match s.getLast? with
  | some c => isEnding c
  | none => false

/-! ## `bracket_pattern.sub('', ·)` : removal of `[<digits>]` markers -/

/-- Scanner for `re.sub('(\[\d*\])', '', ·)`.  The second argument is
`none` in normal scanning mode and `some pend` when `pend` holds (reversed)
a pending `'['` followed by digits that may still complete a match. -/
def brAux : List Char → Option Str → Str
  | [], none => []
  | [], some pend => pend.reverse
  | c :: cs, none =>
    if c = '[' then brAux cs (some ['[']) else c :: brAux cs none
  | c :: cs, some pend =>
    if c.isDigit then brAux cs (some (c :: pend))
    else if c = ']' then brAux cs none
    else if c = '[' then pend.reverse ++ brAux cs (some ['['])
    else pend.reverse ++ c :: brAux cs none

/-- The substitution `bracket_pattern.sub('', t)`. -/
def bracket_sub (t : Str) : Str := brAux t none

/-! ## `sentence_token_pattern.split` -/

/-- Case-insensitive check that the reversed context `t` starts with the
reversed lowercase pattern `pat` (i.e. the text just before the current
position ends with the abbreviation, under `re.IGNORECASE`). -/
def lowerPre (t : Str) (pat : Str) : Bool :=
  decide ((t.take pat.length).map Char.toLower = pat)

/-- The six negative lookbehinds `(?<!Mr\.) … (?<!Sr\.)`, tested on the
reversed context before the whitespace. -/
def isAbbrevBefore (t : Str) : Bool :=
  lowerPre t ['.', 'r', 'm'] || lowerPre t ['.', 's', 'r', 'm'] ||
  lowerPre t ['.', 'r', 'j'] || lowerPre t ['.', 'r', 'd'] ||
  lowerPre t ['.', 'f', 'o', 'r', 'p'] || lowerPre t ['.', 'r', 's']

/-- The two positive lookbehinds `(?<=[.!?]) | (?<=[.!?]['"])`, tested on
the reversed context before the whitespace. -/
def punctBefore : Str → Bool
  | [] => false
  | [c] => sentencePunct c
  | c :: d :: _ => sentencePunct c || (quoteChar c && sentencePunct d)

/-- The full lookbehind of `sentence_token_pattern` at a position whose
reversed preceding context is `ctx`. -/
def splitHere (ctx : Str) : Bool := punctBefore ctx && !(isAbbrevBefore ctx)

/-- Left-to-right scan of `re.split(sentence_token_pattern, ·)`.

`gap = true` while the scanner is consuming the `\s+` of a match (the
fragment has already been emitted); `ctx` is the reversed current
fragment, which is exactly the context the lookbehinds can usefully see
(a lookbehind window reaching across the consumed whitespace run cannot
match, since neither `[.!?]` nor the abbreviations contain whitespace). -/
def splitAux : List Char → Bool → Str → List Str
  | [], gap, ctx => if gap then [[]] else [ctx.reverse]
  | c :: cs, true, _ =>
    if isSpace c then splitAux cs true [] else splitAux cs false [c]
  | c :: cs, false, ctx =>
    if isSpace c && splitHere ctx then ctx.reverse :: splitAux cs true []
    else splitAux cs false (c :: ctx)

/-- The split `sentence_token_pattern.split(t)`. -/
def splitSentences (t : Str) : List Str := splitAux t false []

/-- The Sentence Segmenter: remove bracketed numeric markers, split into
sentence-like fragments, and keep only fragments that end in a terminal
character (`if s.endswith(tuple(sentence_ending))` in the source). -/
def segment (t : Str) : List Str :=
  (splitSentences (bracket_sub t)).filter endsTerminal

/-- The two-character paragraph-break marker `'\n\n'` prepended when
`e == 0` in `get_sentence_xpath_tuples`. -/
def nlnl : Str := ['\n', '\n']

/-- The per-candidate fragment list of the comprehension in
`get_sentence_xpath_tuples`: `('\n\n' + s) if e == 0 else s` for
`e, s in enumerate(split …)` keeping `s` that end in a terminal character
(`e == 0` selects exactly the first fragment of the enumeration). -/
def unitsOf (t : Str) : List Str :=
  match splitSentences (bracket_sub t) with
  | [] => []
  | f :: fs => (if endsTerminal f then [nlnl ++ f] else []) ++ fs.filter endsTerminal

/-! ## The document tree and the candidate query

`TEXT_FINDER_XPATH =
 '//body//*[not(self::script or … or self::a)]/text()
    [string-length(normalize-space()) > 20]/..'`

Under XPath 1.0 semantics (the tree and the query evaluation live in the
external lxml/libxml2 collaborator): the query selects, as a duplicate-free
node-set, every element that is a descendant of a `body` element, whose tag
is not one of the seven excluded tags, and that has at least one *direct*
text child whose `normalize-space()` length exceeds the threshold.  The
`/..` parent step deduplicates an element reached from several of its text
children.  We produce the set in document (pre-)order. -/

inductive Node where
  | elem : String → List Node → Node
  | text : Str → Node

mutual
/-- Decidable equality of nodes (the `deriving` handler does not support
this nested inductive). -/
def nodeDecEq : (a b : Node) → Decidable (a = b)
  | .elem t1 c1, .elem t2 c2 =>
    match String.decEq t1 t2 with
    | isTrue ht =>
      match nodeListDecEq c1 c2 with
      | isTrue hc => isTrue (by rw [ht, hc])
      | isFalse hc => isFalse (by intro h; injection h with _ h2; exact hc h2)
    | isFalse ht => isFalse (by intro h; injection h with h1 _; exact ht h1)
  | .elem _ _, .text _ => isFalse (fun h => Node.noConfusion h)
  | .text _, .elem _ _ => isFalse (fun h => Node.noConfusion h)
  | .text s1, .text s2 =>
    match List.hasDecEq s1 s2 with
    | isTrue hs => isTrue (by rw [hs])
    | isFalse hs => isFalse (by intro h; injection h with h1; exact hs h1)
/-- Decidable equality of node lists. -/
def nodeListDecEq : (a b : List Node) → Decidable (a = b)
  | [], [] => isTrue rfl
  | [], _ :: _ => isFalse (fun h => List.noConfusion h)
  | _ :: _, [] => isFalse (fun h => List.noConfusion h)
  | a :: as, b :: bs =>
    match nodeDecEq a b with
    | isTrue h1 =>
      match nodeListDecEq as bs with
      | isTrue h2 => isTrue (by rw [h1, h2])
      | isFalse h2 => isFalse (by intro h; injection h with _ h4; exact h2 h4)
    | isFalse h1 => isFalse (by intro h; injection h with h3 _; exact h1 h3)
end

instance : DecidableEq Node := nodeDecEq

/-- XML whitespace (`normalize-space` collapses runs of these). -/
def isXmlSpace (c : Char) : Bool :=
  decide (c = ' ' ∨ c = '\t' ∨ c = '\r' ∨ c = '\n')

/-- Split into maximal non-whitespace words (helper for `normalize_space`);
the second argument accumulates the current word reversed. -/
def wordsAux : List Char → Str → List Str
  | [], acc => if acc.isEmpty then [] else [acc.reverse]
  | c :: cs, acc =>
    if isXmlSpace c then
      (if acc.isEmpty then wordsAux cs [] else acc.reverse :: wordsAux cs [])
    else wordsAux cs (c :: acc)

/-- Join a fragment list with single spaces (`' '.join` in Python). -/
def joinSpace : List Str → Str
  | [] => []
  | [s] => s
  | s :: ss => s ++ ' ' :: joinSpace ss

/-- XPath `normalize-space()`: strip leading/trailing whitespace and
collapse internal whitespace runs to a single space. -/
def normalize_space (s : Str) : Str := joinSpace (wordsAux s [])

/-- The tag exclusion list of `TEXT_FINDER_XPATH`. -/
def excludedTag (t : String) : Bool :=
  decide (t = "script" ∨ t = "style" ∨ t = "i" ∨ t = "b" ∨ t = "strong" ∨
    t = "span" ∨ t = "a")

/-- The test `text()[string-length(normalize-space()) > thr]` on one child. -/
def isLongText (thr : Nat) : Node → Bool
  | .text s => decide (thr < (normalize_space s).length)
  | .elem _ _ => false

/-- The element has some direct text child passing the length predicate. -/
def hasLongDirect (thr : Nat) (ch : List Node) : Bool := ch.any (isLongText thr)

mutual
/-- The text collection `''.join(n.xpath('.//text()'))`: all descendant text,
in document order. -/
def descTexts : Node → Str
  | .text s => s
  | .elem _ ch => descTextsList ch
def descTextsList : List Node → Str
  | [] => []
  | n :: ns => descTexts n ++ descTextsList ns
end

/-- Number of elements with tag `t` in a sibling list (for lxml `getpath`
indices, which count same-tag element siblings). -/
def countTagIn (t : String) : List Node → Nat
  | [] => 0
  | .elem u _ :: ns => (if u = t then 1 else 0) + countTagIn t ns
  | .text _ :: ns => countTagIn t ns

/-- One step of an lxml `getpath` address: the tag, with a 1-based index
among same-tag siblings appended only when that tag occurs more than once
in the sibling list (libxml2 `xmlGetNodePath`). -/
def renderStep (t : String) (k total : Nat) : Str :=
  t.toList ++ (if total ≤ 1 then [] else '[' :: (Nat.toDigits 10 k ++ [']']))

mutual
/-- Candidate elements of `TEXT_FINDER_XPATH` paired with their `getpath`
addresses, in document pre-order.  `under` records whether the current node
is a proper descendant of a `body` element; `prev` holds the already
processed elder siblings (for `getpath` indices). -/
def candsNode (thr : Nat) (under : Bool) (path : Str) : Node → List (Node × Str)
  | .text _ => []
  | .elem t ch =>
    (if under && !excludedTag t && hasLongDirect thr ch then
      [(.elem t ch, path)] else [])
      ++ candsSibs thr (under || t = "body") path [] ch
def candsSibs (thr : Nat) (under : Bool) (pPath : Str) (prev : List Node) :
    List Node → List (Node × Str)
  | [] => []
  | .text s :: rest => candsSibs thr under pPath (prev ++ [.text s]) rest
  | .elem t ch :: rest =>
    candsNode thr under
      (pPath ++ '/' ::
        renderStep t (countTagIn t prev + 1)
          (countTagIn t prev + countTagIn t (.elem t ch :: rest)))
      (.elem t ch)
      ++ candsSibs thr under pPath (prev ++ [.elem t ch]) rest
end

/-- The whole candidate query on a parsed document (the root element gets
address `/tag`, as lxml's `getpath` renders the root). -/
def candidates (root : Node) (thr : Nat) : List (Node × Str) :=
  match root with
  | .text _ => []
  | .elem t _ => candsNode thr false ('/' :: t.toList) root

mutual
/-- Every element of the subtree, in document pre-order, together with the
flag recording whether it lies strictly below a `body` element and its
`getpath` address; the unfiltered enumeration underlying the candidate
query. -/
def allElemsNode (under : Bool) (path : Str) : Node → List (Bool × Node × Str)
  | .text _ => []
  | .elem t ch =>
    (under, .elem t ch, path) :: allElemsSibs (under || t = "body") path [] ch
/-- Sibling traversal of `allElemsNode`. -/
def allElemsSibs (under : Bool) (pPath : Str) (prev : List Node) :
    List Node → List (Bool × Node × Str)
  | [] => []
  | .text s :: rest => allElemsSibs under pPath (prev ++ [.text s]) rest
  | .elem t ch :: rest =>
    allElemsNode under
      (pPath ++ '/' ::
        renderStep t (countTagIn t prev + 1)
          (countTagIn t prev + countTagIn t (.elem t ch :: rest)))
      (.elem t ch)
      ++ allElemsSibs under pPath (prev ++ [.elem t ch]) rest
end

/-- All elements of a document in document pre-order, with under-`body`
flags and addresses. -/
def allElems (root : Node) : List (Bool × Node × Str) :=
  match root with
  | .text _ => []
  | .elem t _ => allElemsNode false ('/' :: t.toList) root

/-- The per-element test of `TEXT_FINDER_XPATH` on an enumerated element:
below a `body`, tag not excluded, and at least one single direct text node
whose normalized length exceeds the threshold (per text node, not the
concatenation of the segments). -/
def candTest (thr : Nat) (e : Bool × Node × Str) : Bool :=
  e.1 &&
    match e.2.1 with
    | .elem t ch => !excludedTag t && hasLongDirect thr ch
    | .text _ => false

/-- The function `get_sentence_xpath_tuples` (on an already parsed tree): for every
candidate element, the sentence units of its full descendant text, each
paired with the candidate's address. -/
def get_sentence_xpath_tuples (doc : Node) (thr : Nat) : List (Str × Str) :=
  (candidates doc thr).flatMap fun c => (unitsOf (descTexts c.1)).map fun s => (s, c.2)

/-! ## `get_xpath_frequency_distribution` -/

/-- Python `p.split('/')` (string `split` semantics: an empty string gives one empty part). -/
def splitSlash : Str → List Str
  | [] => [[]]
  | c :: cs =>
    if c = '/' then [] :: splitSlash cs
    else
      match splitSlash cs with
      | [] => [[c]]
      | s :: ss => (c :: s) :: ss

/-- Python `'/'.join(parts)`. -/
def joinSlash : List Str → Str
  | [] => []
  | [s] => s
  | s :: ss => s ++ '/' :: joinSlash ss

/-- The parent address `'/'.join(p.split('/')[:-1])`. -/
def parentpath (x : Str) : Str := joinSlash (splitSlash x).dropLast

/-- Occurrence count of `a` in a list (`Counter` tally). -/
def countOcc (a : Str) : List Str → Nat
  | [] => 0
  | b :: bs => (if b = a then 1 else 0) + countOcc a bs

/-- Index of the first occurrence of `a` in a list (the list's length when
`a` is absent); used to state first-seen / document order. -/
def firstIdx (a : Str) : List Str → Nat
  | [] => 0
  | b :: bs => if b = a then 0 else firstIdx a bs + 1

/-- Keys of `Counter(l)` in first-insertion order (Python dicts preserve
insertion order; `Counter(iterable)` inserts a key at its first
occurrence); `seen` accumulates the keys already emitted. -/
def firstSeenAux : List Str → List Str → List Str
  | [], _ => []
  | x :: xs, seen =>
    if x ∈ seen then firstSeenAux xs seen
    else x :: firstSeenAux xs (x :: seen)

/-- The key list of `Counter(l)`, in first-insertion order. -/
def firstSeen (l : List Str) : List Str := firstSeenAux l []

/-- Stable insertion for a descending sort by count: `x` passes over
strictly greater counts and stops before the first count `≤` its own, so
elements of equal count keep their original relative order. -/
def insertDesc (x : Str × Nat) : List (Str × Nat) → List (Str × Nat)
  | [] => [x]
  | y :: ys => if x.2 < y.2 then y :: insertDesc x ys else x :: y :: ys

/-- Stable sort, descending by count (Python's stable `sorted(…,
key=itemgetter(1), reverse=True)` used by `Counter.most_common`). -/
def sortDesc : List (Str × Nat) → List (Str × Nat)
  | [] => []
  | x :: xs => insertDesc x (sortDesc xs)

/-- Python `Counter(l).most_common()`. -/
def most_common (l : List Str) : List (Str × Nat) :=
  sortDesc ((firstSeen l).map fun k => (k, countOcc k l))

/-- The function `get_xpath_frequency_distribution`. -/
def get_xpath_frequency_distribution (paths : List Str) : List (Str × Nat) :=
  most_common (paths.map parentpath)

/-! ## `extract` -/

/-- Boolean list-prefix test. -/
def isPre [DecidableEq α] : List α → List α → Bool
  | [], _ => true
  | _ :: _, [] => false
  | a :: as, b :: bs => decide (a = b) && isPre as bs

/-- Python's substring containment `p in s` on strings. -/
def isSubstr (p s : Str) : Bool :=
  isPre p s ||
    match s with
    | [] => false
    | _ :: t => isSubstr p t

/-- The spec's address containment: the sequence of address steps of `p`
is a prefix of the steps of `x` (`p` equals `x` or is an ancestor). -/
def stepPre (p x : Str) : Bool := isPre (splitSlash p) (splitSlash x)

/-- Errors `extract` can surface in the embedding.  `indexError` models
Python's built-in `IndexError` raised by `…[0]` on an empty list.
`emptyExtractionError` is modelled from the spec: spec §7 names a dedicated
`EmptyExtractionError` condition; no such class exists in the source, so the
constructor exists only to compare against. -/
inductive PyError where
  | indexError
  | emptyExtractionError
deriving DecidableEq

/-- The function `build_text_finder`, reduced to the threshold it installs in the xpath:
`min_str_length=False` keeps the default (`> 20`), an integer `n` builds
`LEADING_XPATH + str(n) + TO_PARENT` (`> n`).  Caller-supplied custom xpath
strings are out of scope. -/
def build_text_finder : Option Nat → Nat
  | none => 20
  | some n => n

/-- The retention filter `[s for (s, x) in sent_xpath_pairs if max_path[0] in x]`. -/
def retainedPairs (pairs : List (Str × Str)) (top : Str) : List (Str × Str) :=
  pairs.filter fun pr => isSubstr top pr.2

/-- The function `extract` on a parsed document: rank parent addresses of the sentence
units, keep units whose address contains the top parent as a substring,
join with single spaces, and drop the two leading marker characters.
`article_text[2:]` is `List.drop 2`. -/
def extract (doc : Node) (minLen : Option Nat) : Except PyError Str :=
  let pairs := get_sentence_xpath_tuples doc (build_text_finder minLen)
  match get_xpath_frequency_distribution (pairs.map Prod.snd) with
  | [] => Except.error PyError.indexError
  | top :: _ =>
    Except.ok ((joinSpace ((retainedPairs pairs top.1).map Prod.fst)).drop 2)

/-! ## Spec-side comparand definitions (refinement claims) -/

/-- Modelled from the spec: spec §4.1 selects elements whose direct text
content is "the concatenation of all immediate, non-element text segments";
this is that concatenation (the code instead tests each text node
separately). -/
def directText : List Node → Str
  | [] => []
  | .text s :: ns => s ++ directText ns
  | .elem _ _ :: ns => directText ns

/-- Modelled from the spec: the spec's per-element candidate test — the
normalized length of the concatenated direct text exceeds the threshold. -/
def specHasLong (thr : Nat) (ch : List Node) : Bool :=
  decide (thr < (normalize_space (directText ch)).length)

mutual
/-- Modelled from the spec: the candidate query as claim C4 words it,
identical to `candsNode` except that the length test is applied to the
concatenation of the direct text segments. -/
def specCandsNode (thr : Nat) (under : Bool) (path : Str) :
    Node → List (Node × Str)
  | .text _ => []
  | .elem t ch =>
    (if under && !excludedTag t && specHasLong thr ch then
      [(.elem t ch, path)] else [])
      ++ specCandsSibs thr (under || t = "body") path [] ch
/-- Modelled from the spec: sibling traversal of `specCandsNode`. -/
def specCandsSibs (thr : Nat) (under : Bool) (pPath : Str) (prev : List Node) :
    List Node → List (Node × Str)
  | [] => []
  | .text s :: rest => specCandsSibs thr under pPath (prev ++ [.text s]) rest
  | .elem t ch :: rest =>
    specCandsNode thr under
      (pPath ++ '/' ::
        renderStep t (countTagIn t prev + 1)
          (countTagIn t prev + countTagIn t (.elem t ch :: rest)))
      (.elem t ch)
      ++ specCandsSibs thr under pPath (prev ++ [.elem t ch]) rest
end

/-- Modelled from the spec: the whole candidate query under the spec's
concatenated-direct-text reading of claim C4. -/
def specCandidates (root : Node) (thr : Nat) : List (Node × Str) :=
  match root with
  | .text _ => []
  | .elem t _ => specCandsNode thr false ('/' :: t.toList) root

/-- Modelled from the spec: claim C7's "collapsing of inter-sentence
whitespace runs" — replace every whitespace run at a sentence boundary
(same lookbehind as the splitter) by a single space, leave everything else
unchanged.  Mirrors the scanner states of `splitAux`. -/
def collapseAux : List Char → Bool → Str → Str
  | [], _, _ => []
  | c :: cs, true, _ =>
    if isSpace c then collapseAux cs true [] else c :: collapseAux cs false [c]
  | c :: cs, false, ctx =>
    if isSpace c && splitHere ctx then ' ' :: collapseAux cs true []
    else c :: collapseAux cs false (c :: ctx)

/-- Modelled from the spec: collapse the inter-sentence whitespace runs of
a text. -/
def specCollapse (t : Str) : Str := collapseAux t false []

/-! ## Concrete documents used as counterexamples and witnesses -/

/-- A `body` with a `div` holding two long `p` candidates and a sibling
`divx` candidate whose address extends the string `/html/body/div` without
being its structural descendant. -/
def exDoc1 : Node :=
  .elem "html" [ .elem "body" [
    .elem "div" [
      .elem "p" [ .text "This paragraph sentence is long one.".toList ],
      .elem "p" [ .text "Another paragraph sentence right here.".toList ] ],
    .elem "divx" [ .text "An odd sibling sentence lives right here.".toList ] ] ]

/-- A document in which no element passes the minimum-text-length filter. -/
def exDoc2 : Node :=
  .elem "html" [ .elem "body" [ .elem "p" [ .text "short.".toList ] ] ]

/-- A document with one qualifying candidate whose text never reaches a
terminal character, so segmentation yields zero sentence units. -/
def exDoc3 : Node :=
  .elem "html" [ .elem "body" [ .elem "p" [
    .text "this text is definitely long enough but unpunctuated".toList ] ] ]

/-- A document whose `p` has two direct text segments of normalized length
16 each (concatenation 32 > 20, but no single segment exceeds 20). -/
def exDoc4 : Node :=
  .elem "html" [ .elem "body" [
    .elem "p" [ .text "fifteen chars aa".toList, .elem "br" [],
      .text "fifteen more bbb".toList ] ] ]

/-- Children of the `p` of `exDoc10`: two direct text segments that each
exceed the default threshold (claim C10's situation). -/
def exP10 : List Node :=
  [ .text "this first long text node one.".toList,
    .elem "em" [],
    .text " this second long text node two.".toList ]

/-- A document whose `p` has two direct text segments that each exceed the
threshold (claim C10's situation). -/
def exDoc10 : Node := .elem "html" [ .elem "body" [ .elem "p" exP10 ] ]

/-- Address list with two parents of equal tally (`/html/body/div` first
seen before `/html/body/q`), for exercising the ranking. -/
def exPaths : List Str :=
  ["/html/body/div/p[1]".toList, "/html/body/div/p[2]".toList,
    "/html/body/q/r".toList, "/html/body/q/s".toList]



/-! ## Lemmas: the sentence splitter -/

theorem splitAux_ne_nil (l : List Char) :
    ∀ (gap : Bool) (ctx : Str), splitAux l gap ctx ≠ [] := by
  induction l with
  | nil => intro gap ctx; cases gap <;> simp [splitAux]
  | cons c cs ih =>
    intro gap ctx
    cases gap with
    | false =>
      simp only [splitAux]
      split
      · exact List.cons_ne_nil _ _
      · exact ih _ _
    | true =>
      simp only [splitAux]
      split
      · exact ih _ _
      · exact ih _ _

theorem sentencePunct_ending {c : Char} (h : sentencePunct c = true) :
    isEnding c = true := by
  simp only [sentencePunct, decide_eq_true_eq] at h
  rcases h with h | h | h <;> subst h <;> decide

theorem quoteChar_ending {c : Char} (h : quoteChar c = true) :
    isEnding c = true := by
  simp only [quoteChar, decide_eq_true_eq] at h
  rcases h with h | h <;> subst h <;> decide

theorem splitHere_head {ctx : Str} (h : splitHere ctx = true) :
    ∃ c rest, ctx = c :: rest ∧ isEnding c = true := by
  unfold splitHere at h
  have hp : punctBefore ctx = true := Bool.and_eq_true_iff.mp h |>.1
  match ctx, hp with
  | [c], hp =>
    exact ⟨c, [], rfl, sentencePunct_ending (by simpa [punctBefore] using hp)⟩
  | c :: d :: rest, hp =>
    refine ⟨c, d :: rest, rfl, ?_⟩
    simp only [punctBefore, Bool.or_eq_true, Bool.and_eq_true] at hp
    rcases hp with hp | ⟨hq, _⟩
    · exact sentencePunct_ending hp
    · exact quoteChar_ending hq

theorem getLast?_cons_ne_nil {α : Type} {c : α} {L : List α} (hL : L ≠ []) :
    (c :: L).getLast? = L.getLast? := by
  obtain ⟨x, xs, rfl⟩ := List.exists_cons_of_ne_nil hL
  rw [List.getLast?_cons_cons]

theorem getLast?_cons_some {α : Type} {c : α} {L : List α} {a : α}
    (h : L.getLast? = some a) : (c :: L).getLast? = some a := by
  have hL : L ≠ [] := by rintro rfl; simp at h
  rw [getLast?_cons_ne_nil hL]; exact h

theorem getLast?_append_some {α : Type} {y : List α} {a : α} (x : List α)
    (h : y.getLast? = some a) : (x ++ y).getLast? = some a := by
  have hy : y ≠ [] := by rintro rfl; simp at h
  rw [List.getLast?_append_of_ne_nil x hy]; exact h

theorem endsTerminal_of_getLast? {s : Str} {c : Char}
    (h : s.getLast? = some c) (hc : isEnding c = true) :
    endsTerminal s = true := by
  unfold endsTerminal; rw [h]; exact hc

theorem endsTerminal_reverse_cons {c : Char} {t : Str}
    (hc : isEnding c = true) : endsTerminal ((c :: t).reverse) = true := by
  refine endsTerminal_of_getLast? ?_ hc
  rw [List.reverse_cons]
  exact getLast?_append_some _ rfl

/-- Every fragment of the split other than the last one ends at a split
boundary, hence in a terminal character. -/
theorem splitAux_dropLast_terminal (l : List Char) :
    ∀ (gap : Bool) (ctx : Str),
      ∀ f ∈ (splitAux l gap ctx).dropLast, endsTerminal f = true := by
  induction l with
  | nil => intro gap ctx f hf; cases gap <;> simp [splitAux] at hf
  | cons c cs ih =>
    intro gap ctx f hf
    cases gap with
    | false =>
      simp only [splitAux] at hf
      by_cases hsp : (isSpace c && splitHere ctx) = true
      · rw [if_pos hsp] at hf
        obtain ⟨x, xs, hxxs⟩ := List.exists_cons_of_ne_nil (splitAux_ne_nil cs true [])
        rw [hxxs, List.dropLast_cons₂, List.mem_cons] at hf
        rcases hf with rfl | hf
        · obtain ⟨e, rest, hctx, he⟩ :=
            splitHere_head (Bool.and_eq_true_iff.mp hsp).2
          rw [hctx]
          exact endsTerminal_reverse_cons he
        · exact ih true [] f (by rw [hxxs]; exact hf)
      · rw [if_neg hsp] at hf
        exact ih _ _ f hf
    | true =>
      simp only [splitAux] at hf
      by_cases hsp : isSpace c = true
      · rw [if_pos hsp] at hf; exact ih _ _ f hf
      · rw [if_neg hsp] at hf; exact ih _ _ f hf

/-- If the text still to be processed ends in a full stop, every fragment
the splitter emits ends in a terminal character. -/
theorem splitAux_all_terminal (l : List Char) :
    ∀ (gap : Bool) (ctx : Str),
      ((if gap = true then ([] : Str) else ctx.reverse) ++ l).getLast? = some '.' →
      ∀ f ∈ splitAux l gap ctx, endsTerminal f = true := by
  induction l with
  | nil =>
    intro gap ctx h f hf
    cases gap with
    | true => simp at h
    | false =>
      simp only [List.append_nil] at h
      simp [splitAux] at hf
      subst hf
      exact endsTerminal_of_getLast? (by simpa using h) (by decide)
  | cons c cs ih =>
    intro gap ctx h f hf
    cases gap with
    | true =>
      simp only [List.nil_append] at h
      simp only [splitAux] at hf
      by_cases hsp : isSpace c = true
      · rw [if_pos hsp] at hf
        have hcs : cs ≠ [] := by
          rintro rfl
          have hc : c = '.' := by simpa using h
          subst hc
          simp [isSpace] at hsp
        have h' : (c :: cs).getLast? = some '.' := by simpa using h
        refine ih true [] ?_ f hf
        rw [getLast?_cons_ne_nil hcs] at h'
        simpa using h' 
      · rw [if_neg hsp] at hf
        refine ih false [c] ?_ f hf
        simpa using h
    | false =>
      simp only [splitAux] at hf
      by_cases hsp : (isSpace c && splitHere ctx) = true
      · rw [if_pos hsp] at hf
        rw [List.mem_cons] at hf
        rcases hf with rfl | hf
        · obtain ⟨e, rest, hctx, he⟩ :=
            splitHere_head (Bool.and_eq_true_iff.mp hsp).2
          rw [hctx]
          exact endsTerminal_reverse_cons he
        · refine ih true [] ?_ f hf
          have hcl : (ctx.reverse ++ c :: cs).getLast? = some '.' := by simpa using h
          have hcs : cs ≠ [] := by
            rintro rfl
            rw [List.getLast?_append_of_ne_nil _ (List.cons_ne_nil c [])] at hcl
            have hc : c = '.' := by simpa using hcl
            subst hc
            have := (Bool.and_eq_true_iff.mp hsp).1
            simp [isSpace] at this
          rw [List.getLast?_append_of_ne_nil _ (List.cons_ne_nil c _),
            getLast?_cons_ne_nil hcs] at hcl
          simpa using hcl
      · rw [if_neg hsp] at hf
        refine ih false (c :: ctx) ?_ f hf
        have hcl : (ctx.reverse ++ c :: cs).getLast? = some '.' := by simpa using h
        simpa [List.reverse_cons, List.append_assoc] using hcl

theorem joinSpace_cons_ne_nil (a : Str) {L : List Str} (h : L ≠ []) :
    joinSpace (a :: L) = a ++ ' ' :: joinSpace L := by
  obtain ⟨x, xs, rfl⟩ := List.exists_cons_of_ne_nil h
  rfl

/-- Joining all fragments with single spaces is the same as collapsing
each boundary whitespace run to a single space. -/
theorem joinSpace_splitAux (l : List Char) :
    ∀ (gap : Bool) (ctx : Str),
      joinSpace (splitAux l gap ctx) =
        (if gap = true then ([] : Str) else ctx.reverse) ++ collapseAux l gap ctx := by
  induction l with
  | nil =>
    intro gap ctx
    cases gap <;> simp [splitAux, collapseAux, joinSpace]
  | cons c cs ih =>
    intro gap ctx
    cases gap with
    | true =>
      simp only [splitAux, collapseAux, List.nil_append]
      by_cases hsp : isSpace c = true
      · rw [if_pos hsp, if_pos hsp, ih]
        simp
      · rw [if_neg hsp, if_neg hsp, ih]
        simp
    | false =>
      simp only [splitAux, collapseAux]
      by_cases hsp : (isSpace c && splitHere ctx) = true
      · rw [if_pos hsp, if_pos hsp,
          joinSpace_cons_ne_nil _ (splitAux_ne_nil cs true []), ih]
        simp
      · rw [if_neg hsp, if_neg hsp, ih]
        simp [List.reverse_cons]

/-- The substitution `bracket_pattern.sub` never removes a trailing full stop. -/
theorem brAux_lastDot (l : List Char) :
    ∀ (st : Option Str), l.getLast? = some '.' →
      (brAux l st).getLast? = some '.' := by
  induction l with
  | nil => intro st h; simp at h
  | cons c cs ih =>
    intro st h
    by_cases hcs : cs = []
    · subst hcs
      have hc : c = '.' := by simpa using h
      subst hc
      cases st with
      | none => simp [brAux]
      | some pend =>
        simp only [brAux, if_neg (by decide : ¬(('.'.isDigit) = true)),
          if_neg (by decide : ¬('.' = ']')), if_neg (by decide : ¬('.' = '['))]
        exact getLast?_append_some _ (by simp [brAux])
    · rw [getLast?_cons_ne_nil hcs] at h
      cases st with
      | none =>
        simp only [brAux]
        by_cases h1 : c = '['
        · rw [if_pos h1]; exact ih _ h
        · rw [if_neg h1]; exact getLast?_cons_some (ih _ h)
      | some pend =>
        simp only [brAux]
        by_cases h1 : (c.isDigit) = true
        · rw [if_pos h1]; exact ih _ h
        · rw [if_neg h1]
          by_cases h2 : c = ']'
          · rw [if_pos h2]; exact ih _ h
          · rw [if_neg h2]
            by_cases h3 : c = '['
            · rw [if_pos h3]; exact getLast?_append_some _ (ih _ h)
            · rw [if_neg h3]
              exact getLast?_append_some _ (getLast?_cons_some (ih _ h))

/-! ## Lemmas: segmentation and sentence units -/

theorem endsTerminal_ne_nil {s : Str} (h : endsTerminal s = true) : s ≠ [] := by
  rintro rfl
  simp [endsTerminal] at h

theorem mem_segment_terminal {t f : Str} (h : f ∈ segment t) :
    endsTerminal f = true :=
  (List.mem_filter.mp h).2

/-- The marker shape of a candidate's emitted units: the paragraph-break
marker sits on exactly the first emitted fragment (if the first raw
fragment is dropped, the split produced a single fragment and nothing is
emitted at all). -/
theorem unitsOf_shape (t : Str) :
    unitsOf t =
      match segment t with
      | [] => []
      | f :: fs => (nlnl ++ f) :: fs := by
  unfold unitsOf segment splitSentences
  obtain ⟨f, fs, hffs⟩ :=
    List.exists_cons_of_ne_nil (splitAux_ne_nil (bracket_sub t) false [])
  rw [hffs]
  by_cases hf : endsTerminal f = true
  · simp [List.filter_cons, hf]
  · have hfs : fs = [] := by
      by_contra hne
      obtain ⟨x, xs, rfl⟩ := List.exists_cons_of_ne_nil hne
      have hmem : f ∈ (splitAux (bracket_sub t) false []).dropLast := by
        rw [hffs, List.dropLast_cons₂]
        exact List.mem_cons_self _ _
      exact hf (splitAux_dropLast_terminal (bracket_sub t) false [] f hmem)
    subst hfs
    simp [List.filter_cons, hf]

theorem unitsOf_member {t u : Str} (hu : u ∈ unitsOf t) :
    ∃ s, endsTerminal s = true ∧ s ≠ [] ∧ (u = s ∨ u = nlnl ++ s) := by
  rw [unitsOf_shape] at hu
  cases hseg : segment t with
  | nil => rw [hseg] at hu; simp at hu
  | cons f fs =>
    rw [hseg] at hu
    rcases List.mem_cons.mp hu with rfl | hmem
    · have hf : endsTerminal f = true :=
        mem_segment_terminal (hseg ▸ List.mem_cons_self f fs)
      exact ⟨f, hf, endsTerminal_ne_nil hf, Or.inr rfl⟩
    · have hm : u ∈ segment t := hseg ▸ List.mem_cons_of_mem f hmem
      have hu' := mem_segment_terminal hm
      exact ⟨u, hu', endsTerminal_ne_nil hu', Or.inl rfl⟩

/-! ## Claim theorems: the Sentence Segmenter (C7, C8, C9) -/

/-- C7: for any input text that ends in a full stop, joining the segmented
fragments with single spaces reproduces the original text up to removal of
bracketed numeric footnote markers and collapse of each inter-sentence
whitespace run to a single space. -/
theorem C7_round_trip (t : Str) (h : t.getLast? = some '.') :
    joinSpace (segment t) = specCollapse (bracket_sub t) := by
  have hb : (bracket_sub t).getLast? = some '.' := brAux_lastDot t none h
  unfold segment specCollapse splitSentences
  rw [List.filter_eq_self.mpr
    (splitAux_all_terminal (bracket_sub t) false [] (by simpa using hb))]
  have := joinSpace_splitAux (bracket_sub t) false []
  simpa using this

theorem C7_round_trip_witness :
    ("No one saw it[3]. The dog   did.".toList.getLast? = some '.') ∧
      joinSpace (segment "No one saw it[3]. The dog   did.".toList) =
        specCollapse (bracket_sub "No one saw it[3]. The dog   did.".toList) :=
  ⟨by decide, C7_round_trip _ (by decide)⟩

/-- C8: segmenting the exact text "Dr. Smith won. He left." yields exactly
the two fragments "Dr. Smith won." and "He left." — no split after the
abbreviation "Dr.", a split at the sentence-final period. -/
theorem C8_abbrev_non_split :
    segment "Dr. Smith won. He left.".toList =
      ["Dr. Smith won.".toList, "He left.".toList] := by decide

/-- C9: every sentence unit emitted by the candidate extractor has
non-empty text ending in a terminal character of `{. " ? ! '}`, except
that a unit may carry the synthetic two-character paragraph-break marker
in front of text of that same form. -/
theorem C9_unit_invariant (doc : Node) (minLen : Option Nat) (pr : Str × Str)
    (hpr : pr ∈ get_sentence_xpath_tuples doc (build_text_finder minLen)) :
    ∃ s, endsTerminal s = true ∧ s ≠ [] ∧ (pr.1 = s ∨ pr.1 = nlnl ++ s) := by
  unfold get_sentence_xpath_tuples at hpr
  rw [List.mem_flatMap] at hpr
  obtain ⟨c, _, hmem⟩ := hpr
  rw [List.mem_map] at hmem
  obtain ⟨s, hs, rfl⟩ := hmem
  exact unitsOf_member hs

theorem C9_unit_invariant_witness :
    (("\n\nThis paragraph sentence is long one.".toList,
        "/html/body/div/p[1]".toList) ∈
      get_sentence_xpath_tuples exDoc1 (build_text_finder none)) ∧
      ∃ s, endsTerminal s = true ∧ s ≠ [] ∧
        (("\n\nThis paragraph sentence is long one.".toList : Str) = s ∨
          "\n\nThis paragraph sentence is long one.".toList = nlnl ++ s) :=
  ⟨by decide,
    C9_unit_invariant exDoc1 none
      ("\n\nThis paragraph sentence is long one.".toList,
        "/html/body/div/p[1]".toList) (by decide)⟩

/-! ## Lemmas: `Counter.most_common` (first-seen keys, stable sort) -/

theorem mem_insertDesc {x y : Str × Nat} {l : List (Str × Nat)} :
    y ∈ insertDesc x l ↔ y = x ∨ y ∈ l := by
  induction l with
  | nil => simp [insertDesc]
  | cons z zs ih =>
    simp only [insertDesc]
    split
    · simp only [List.mem_cons, ih]
      tauto
    · simp only [List.mem_cons]

theorem mem_sortDesc {y : Str × Nat} {l : List (Str × Nat)} :
    y ∈ sortDesc l ↔ y ∈ l := by
  induction l with
  | nil => simp [sortDesc]
  | cons x xs ih => simp [sortDesc, mem_insertDesc, ih]

theorem sortDesc_ne_nil {l : List (Str × Nat)} (h : l ≠ []) :
    sortDesc l ≠ [] := by
  obtain ⟨x, xs, rfl⟩ := List.exists_cons_of_ne_nil h
  simp only [sortDesc]
  cases hs : sortDesc xs with
  | nil => simp [insertDesc]
  | cons z zs =>
    simp only [insertDesc]
    split <;> simp

theorem pairwise_insertDesc {x : Str × Nat} {l : List (Str × Nat)}
    (h : l.Pairwise fun a b => b.2 ≤ a.2) :
    (insertDesc x l).Pairwise fun a b => b.2 ≤ a.2 := by
  induction l with
  | nil => simp [insertDesc]
  | cons z zs ih =>
    rw [List.pairwise_cons] at h
    obtain ⟨hz, hzs⟩ := h
    simp only [insertDesc]
    split
    · rename_i hlt
      rw [List.pairwise_cons]
      refine ⟨?_, ih hzs⟩
      intro b hb
      rcases mem_insertDesc.mp hb with rfl | hb
      · exact Nat.le_of_lt hlt
      · exact hz b hb
    · rename_i hge
      rw [List.pairwise_cons]
      refine ⟨?_, List.pairwise_cons.mpr ⟨hz, hzs⟩⟩
      intro b hb
      rcases List.mem_cons.mp hb with rfl | hb
      · exact Nat.le_of_not_lt hge
      · exact Nat.le_trans (hz b hb) (Nat.le_of_not_lt hge)

theorem pairwise_sortDesc (l : List (Str × Nat)) :
    (sortDesc l).Pairwise fun a b => b.2 ≤ a.2 := by
  induction l with
  | nil => simp [sortDesc]
  | cons x xs ih => exact pairwise_insertDesc ih

/-- Stability, filter form: the sublist of entries with a given count is
unchanged by the insertion. -/
theorem filter_insertDesc (x : Str × Nat) (l : List (Str × Nat)) (c : Nat) :
    (insertDesc x l).filter (fun pr => decide (pr.2 = c)) =
      (x :: l).filter (fun pr => decide (pr.2 = c)) := by
  induction l with
  | nil => rfl
  | cons z zs ih =>
    simp only [insertDesc]
    split
    · rename_i hlt
      rw [List.filter_cons, ih]
      by_cases hz : z.2 = c
      · have hx : ¬x.2 = c := by omega
        simp [List.filter_cons, hz, hx]
      · simp [List.filter_cons, hz]
    · rfl

theorem filter_sortDesc (l : List (Str × Nat)) (c : Nat) :
    (sortDesc l).filter (fun pr => decide (pr.2 = c)) =
      l.filter (fun pr => decide (pr.2 = c)) := by
  induction l with
  | nil => rfl
  | cons x xs ih =>
    simp only [sortDesc]
    rw [filter_insertDesc, List.filter_cons, ih]
    simp [List.filter_cons]

/-! ## Lemmas: first-seen key order -/

theorem mem_firstSeenAux {a : Str} :
    ∀ {l seen : List Str}, a ∈ firstSeenAux l seen ↔ a ∈ l ∧ a ∉ seen := by
  intro l
  induction l with
  | nil => intro seen; simp [firstSeenAux]
  | cons x xs ih =>
    intro seen
    simp only [firstSeenAux]
    by_cases hx : x ∈ seen
    · rw [if_pos hx, ih, List.mem_cons]
      constructor
      · rintro ⟨h1, h2⟩
        exact ⟨Or.inr h1, h2⟩
      · rintro ⟨rfl | h1, h2⟩
        · exact absurd hx h2
        · exact ⟨h1, h2⟩
    · rw [if_neg hx, List.mem_cons, ih, List.mem_cons, List.mem_cons]
      by_cases hax : a = x
      · subst hax; tauto
      · tauto

theorem mem_firstSeen {a : Str} {l : List Str} :
    a ∈ firstSeen l ↔ a ∈ l := by
  unfold firstSeen
  rw [mem_firstSeenAux]
  simp

/-- First-seen key order: if `p` first occurs strictly before `q` in the
input, `p` precedes `q` in the deduplicated key list. -/
theorem firstIdx_firstSeenAux_sublist :
    ∀ {l seen : List Str} {p q : Str}, p ∈ l → q ∈ l →
      p ∉ seen → q ∉ seen → firstIdx p l < firstIdx q l →
      List.Sublist [p, q] (firstSeenAux l seen) := by
  intro l
  induction l with
  | nil => intro seen p q hp _ _ _ _; simp at hp
  | cons x xs ih =>
    intro seen p q hp hq hps hqs hlt
    simp only [firstSeenAux]
    by_cases hxs : x ∈ seen
    · rw [if_pos hxs]
      have hxp : ¬x = p := fun h => hps (h ▸ hxs)
      have hxq : ¬x = q := fun h => hqs (h ▸ hxs)
      have hp' : p ∈ xs := by
        rcases List.mem_cons.mp hp with rfl | h
        · exact absurd rfl hxp
        · exact h
      have hq' : q ∈ xs := by
        rcases List.mem_cons.mp hq with rfl | h
        · exact absurd rfl hxq
        · exact h
      simp only [firstIdx, if_neg hxp, if_neg hxq] at hlt
      exact ih hp' hq' hps hqs (by omega)
    · rw [if_neg hxs]
      by_cases hxp : x = p
      · subst hxp
        have hxq : ¬x = q := by
          rintro rfl
          simp [firstIdx] at hlt
        have hq' : q ∈ xs := by
          rcases List.mem_cons.mp hq with rfl | h
          · exact absurd rfl hxq
          · exact h
        have hqmem : q ∈ firstSeenAux xs (x :: seen) := by
          rw [mem_firstSeenAux]
          refine ⟨hq', fun hc => ?_⟩
          rcases List.mem_cons.mp hc with h | h
          · exact hxq h.symm
          · exact hqs h
        exact (List.singleton_sublist.mpr hqmem).cons₂ x
      · by_cases hxq : x = q
        · subst hxq
          simp only [firstIdx] at hlt
          simp [hxp] at hlt
        · have hp' : p ∈ xs := by
            rcases List.mem_cons.mp hp with rfl | h
            · exact absurd rfl hxp
            · exact h
          have hq' : q ∈ xs := by
            rcases List.mem_cons.mp hq with rfl | h
            · exact absurd rfl hxq
            · exact h
          have hps' : p ∉ x :: seen := by
            intro hc
            rcases List.mem_cons.mp hc with h | h
            · exact hxp h.symm
            · exact hps h
          have hqs' : q ∉ x :: seen := by
            intro hc
            rcases List.mem_cons.mp hc with h | h
            · exact hxq h.symm
            · exact hqs h
          simp only [firstIdx, if_neg hxp, if_neg hxq] at hlt
          exact (ih hp' hq' hps' hqs' (by omega)).cons x

theorem firstIdx_firstSeen_sublist {l : List Str} {p q : Str}
    (hp : p ∈ l) (hq : q ∈ l) (hlt : firstIdx p l < firstIdx q l) :
    List.Sublist [p, q] (firstSeen l) :=
  firstIdx_firstSeenAux_sublist hp hq (by simp) (by simp) hlt

theorem mem_most_common {l : List Str} {pr : Str × Nat}
    (h : pr ∈ most_common l) : pr.1 ∈ l ∧ pr.2 = countOcc pr.1 l := by
  unfold most_common at h
  rw [mem_sortDesc, List.mem_map] at h
  obtain ⟨k, hk, rfl⟩ := h
  exact ⟨mem_firstSeen.mp hk, rfl⟩

theorem most_common_complete {l : List Str} {a : Str} (h : a ∈ l) :
    (a, countOcc a l) ∈ most_common l := by
  unfold most_common
  rw [mem_sortDesc, List.mem_map]
  exact ⟨a, mem_firstSeen.mpr h, rfl⟩

/-- Equal tallies are returned in first-seen order of the key. -/
theorem most_common_tie {l : List Str} {p q : Str} {c : Nat}
    (hp : (p, c) ∈ most_common l) (hq : (q, c) ∈ most_common l)
    (hlt : firstIdx p l < firstIdx q l) :
    List.Sublist [(p, c), (q, c)] (most_common l) := by
  have hpm := mem_most_common hp
  have hqm := mem_most_common hq
  have hsub : List.Sublist [p, q] (firstSeen l) :=
    firstIdx_firstSeen_sublist hpm.1 hqm.1 hlt
  have hsub2 : List.Sublist [(p, countOcc p l), (q, countOcc q l)]
      ((firstSeen l).map fun k => (k, countOcc k l)) := by
    simpa using hsub.map fun k => (k, countOcc k l)
  rw [← hpm.2, ← hqm.2] at hsub2
  have h3 := hsub2.filter fun pr => decide (pr.2 = c)
  rw [show ([(p, c), (q, c)] : List (Str × Nat)).filter
      (fun pr => decide (pr.2 = c)) = [(p, c), (q, c)] by simp] at h3
  rw [← filter_sortDesc ((firstSeen l).map fun k => (k, countOcc k l)) c] at h3
  unfold most_common
  exact h3.trans (List.filter_sublist _)

/-! ## Claim theorem: the ancestor frequency ranking (C5) -/

/-- C5: `get_xpath_frequency_distribution` maps each input address to its
parent by dropping the final path step and tallies per parent: every
returned pair carries exactly its parent's tally, every input address's
parent is returned, the result is sorted descending by count, and for two
parents of equal count the one whose first candidate occurs earlier in the
input order ranks higher (its pair precedes the other's in the output). -/
theorem C5_rank_descending_stable (paths : List Str) (p q : Str) (c : Nat)
    (hp : (p, c) ∈ get_xpath_frequency_distribution paths)
    (hq : (q, c) ∈ get_xpath_frequency_distribution paths)
    (hlt : firstIdx p (paths.map parentpath) < firstIdx q (paths.map parentpath)) :
    (∀ pr ∈ get_xpath_frequency_distribution paths,
        pr.1 ∈ paths.map parentpath ∧
          pr.2 = countOcc pr.1 (paths.map parentpath)) ∧
      (∀ x ∈ paths,
        (parentpath x, countOcc (parentpath x) (paths.map parentpath)) ∈
          get_xpath_frequency_distribution paths) ∧
      (get_xpath_frequency_distribution paths).Pairwise
        (fun a b => b.2 ≤ a.2) ∧
      List.Sublist [(p, c), (q, c)]
        (get_xpath_frequency_distribution paths) := by
  unfold get_xpath_frequency_distribution at hp hq ⊢
  refine ⟨fun pr hpr => mem_most_common hpr, ?_, ?_,
    most_common_tie hp hq hlt⟩
  · intro x hx
    exact most_common_complete (List.mem_map_of_mem parentpath hx)
  · exact pairwise_sortDesc _

theorem C5_rank_descending_stable_witness :
    (("/html/body/div".toList, 2) ∈ get_xpath_frequency_distribution exPaths) ∧
      (("/html/body/q".toList, 2) ∈ get_xpath_frequency_distribution exPaths) ∧
      firstIdx "/html/body/div".toList (exPaths.map parentpath) <
        firstIdx "/html/body/q".toList (exPaths.map parentpath) ∧
      List.Sublist [("/html/body/div".toList, 2), ("/html/body/q".toList, 2)]
        (get_xpath_frequency_distribution exPaths) :=
  ⟨by decide, by decide, by decide,
    (C5_rank_descending_stable exPaths "/html/body/div".toList
      "/html/body/q".toList 2 (by decide) (by decide) (by decide)).2.2.2⟩

/-! ## Lemmas: prefixes, substrings and rendered addresses -/

theorem isPre_append_self {α : Type} [DecidableEq α] (p r : List α) :
    isPre p (p ++ r) = true := by
  induction p with
  | nil => rfl
  | cons a as ih => simp [isPre, ih]

theorem isSubstr_of_isPre {p s : Str} (h : isPre p s = true) :
    isSubstr p s = true := by
  cases s with
  | nil => unfold isSubstr; simp [h]
  | cons a t => unfold isSubstr; simp [h]

theorem isPre_iff {α : Type} [DecidableEq α] :
    ∀ {p s : List α}, isPre p s = true ↔ ∃ r, s = p ++ r := by
  intro p
  induction p with
  | nil => intro s; simp [isPre]
  | cons a as ih =>
    intro s
    cases s with
    | nil => simp [isPre]
    | cons b t =>
      simp only [isPre, Bool.and_eq_true, decide_eq_true_eq, ih,
        List.cons_append, List.cons.injEq]
      constructor
      · rintro ⟨rfl, r, rfl⟩
        exact ⟨r, rfl, rfl⟩
      · rintro ⟨r, hb, ht⟩
        exact ⟨hb.symm, r, ht⟩

theorem splitSlash_ne_nil (s : Str) : splitSlash s ≠ [] := by
  cases s with
  | nil => simp [splitSlash]
  | cons c cs =>
    simp only [splitSlash]
    split
    · simp
    · cases h : splitSlash cs with
      | nil => simp
      | cons a as => simp

theorem joinSlash_splitSlash (s : Str) : joinSlash (splitSlash s) = s := by
  induction s with
  | nil => rfl
  | cons c cs ih =>
    simp only [splitSlash]
    by_cases hc : c = '/'
    · rw [if_pos hc]
      cases ha : splitSlash cs with
      | nil => exact absurd ha (splitSlash_ne_nil cs)
      | cons a as =>
        rw [ha] at ih
        show ([] : Str) ++ '/' :: joinSlash (a :: as) = c :: cs
        rw [List.nil_append, ih, hc]
    · rw [if_neg hc]
      cases ha : splitSlash cs with
      | nil => exact absurd ha (splitSlash_ne_nil cs)
      | cons a as =>
        rw [ha] at ih
        cases as with
        | nil =>
          simp only [joinSlash] at ih ⊢
          rw [ih]
        | cons b bs =>
          simp only [joinSlash] at ih ⊢
          rw [List.cons_append, ih]

theorem joinSlash_append {a : List Str} (b : List Str) (ha : a ≠ [])
    (hb : b ≠ []) :
    joinSlash (a ++ b) = joinSlash a ++ '/' :: joinSlash b := by
  induction a with
  | nil => exact absurd rfl ha
  | cons x xs ih =>
    cases xs with
    | nil =>
      obtain ⟨y, ys, rfl⟩ := List.exists_cons_of_ne_nil hb
      rfl
    | cons z zs =>
      have ih' := ih (by simp)
      show x ++ '/' :: joinSlash ((z :: zs) ++ b) =
        (x ++ '/' :: joinSlash (z :: zs)) ++ '/' :: joinSlash b
      rw [ih']
      simp

/-- The parent address obtained by dropping the last `/`-step is always a
string prefix, hence a Python-substring, of the address. -/
theorem isSubstr_parentpath (x : Str) : isSubstr (parentpath x) x = true := by
  unfold parentpath
  have hsplit : (splitSlash x).dropLast ++
      [(splitSlash x).getLast (splitSlash_ne_nil x)] = splitSlash x :=
    List.dropLast_append_getLast _
  by_cases hd : (splitSlash x).dropLast = []
  · rw [hd]
    exact isSubstr_of_isPre rfl
  · have hx : x = joinSlash (splitSlash x).dropLast ++
        '/' :: joinSlash [(splitSlash x).getLast (splitSlash_ne_nil x)] := by
      conv_lhs => rw [← joinSlash_splitSlash x, ← hsplit]
      rw [joinSlash_append _ hd (by simp)]
    exact isSubstr_of_isPre (isPre_iff.mpr ⟨_, hx⟩)

/-- Step-prefix containment (the spec's descendant relation) implies
Python substring containment (the code's retention test). -/
theorem isSubstr_of_stepPre {p x : Str} (h : stepPre p x = true) :
    isSubstr p x = true := by
  unfold stepPre at h
  obtain ⟨r, hr⟩ := isPre_iff.mp h
  cases r with
  | nil =>
    have hxp : x = p := by
      rw [← joinSlash_splitSlash x, ← joinSlash_splitSlash p, hr,
        List.append_nil]
    rw [hxp]
    exact isSubstr_of_isPre (by simpa using isPre_append_self p [])
  | cons a as =>
    have hx : x = p ++ '/' :: joinSlash (a :: as) := by
      rw [← joinSlash_splitSlash x, hr,
        joinSlash_append _ (splitSlash_ne_nil p) (by simp),
        joinSlash_splitSlash p]
    exact isSubstr_of_isPre (isPre_iff.mpr ⟨_, hx⟩)

/-! ## Lemmas: anatomy of a successful `extract` -/

theorem filter_flatMap {α β : Type} (l : List α) (f : α → List β)
    (q : β → Bool) :
    (l.flatMap f).filter q = l.flatMap fun a => (f a).filter q := by
  induction l with
  | nil => rfl
  | cons x xs ih => simp [List.flatMap_cons, List.filter_append, ih]

theorem filter_map_const_snd (l : List Str) (y : Str) (P : Str → Bool) :
    ((l.map fun s => (s, y)).filter fun pr => P pr.2) =
      if P y = true then l.map fun s => (s, y) else [] := by
  induction l with
  | nil => simp
  | cons a as ih =>
    simp only [List.map_cons, List.filter_cons]
    by_cases hy : P y = true
    · simp [hy, ih]
    · simp [hy, ih]

/-- Retention filters whole per-candidate groups: a unit survives exactly
when its candidate's address contains the top parent as a substring. -/
theorem retainedPairs_flatMap (cands : List (Node × Str)) (top : Str) :
    retainedPairs
        (cands.flatMap fun c => (unitsOf (descTexts c.1)).map fun s => (s, c.2))
        top =
      cands.flatMap fun c =>
        if isSubstr top c.2 = true then
          (unitsOf (descTexts c.1)).map fun s => (s, c.2)
        else [] := by
  unfold retainedPairs
  rw [filter_flatMap]
  congr 1
  funext c
  exact filter_map_const_snd _ _ _

/-- The concatenation of all-or-nothing candidate groups is empty or
starts with a marker-carrying first unit. -/
theorem flatMap_units_head (cands : List (Node × Str)) (top : Str) :
    (cands.flatMap fun c =>
        if isSubstr top c.2 = true then
          (unitsOf (descTexts c.1)).map fun s => (s, c.2)
        else []) = [] ∨
      ∃ f path rest, endsTerminal f = true ∧
        (cands.flatMap fun c =>
            if isSubstr top c.2 = true then
              (unitsOf (descTexts c.1)).map fun s => (s, c.2)
            else []) = (nlnl ++ f, path) :: rest := by
  induction cands with
  | nil => exact Or.inl rfl
  | cons c cs ih =>
    rw [List.flatMap_cons]
    by_cases hc : isSubstr top c.2 = true
    · rw [if_pos hc]
      cases hseg : segment (descTexts c.1) with
      | nil =>
        have hu : unitsOf (descTexts c.1) = [] := by rw [unitsOf_shape, hseg]
        rw [hu]
        simpa using ih
      | cons f fs =>
        have hu : unitsOf (descTexts c.1) = (nlnl ++ f) :: fs := by
          rw [unitsOf_shape, hseg]
        rw [hu]
        refine Or.inr ⟨f, c.2,
          (fs.map fun s => (s, c.2)) ++ cs.flatMap (fun c =>
            if isSubstr top c.2 = true then
              (unitsOf (descTexts c.1)).map fun s => (s, c.2)
            else []), ?_, ?_⟩
        · exact mem_segment_terminal (hseg ▸ List.mem_cons_self f fs)
        · simp [List.map_cons, List.cons_append]
    · rw [if_neg hc]
      simpa using ih

theorem firstSeen_ne_nil {l : List Str} (h : l ≠ []) : firstSeen l ≠ [] := by
  obtain ⟨x, xs, rfl⟩ := List.exists_cons_of_ne_nil h
  simp [firstSeen, firstSeenAux]

theorem drop_two_joinSpace (f : Str) (L : List Str) :
    (joinSpace ((nlnl ++ f) :: L)).drop 2 = joinSpace (f :: L) := by
  cases L with
  | nil => simp [joinSpace, nlnl]
  | cons a as =>
    rw [joinSpace_cons_ne_nil _ (by simp : (a :: as) ≠ []),
      joinSpace_cons_ne_nil _ (by simp : (a :: as) ≠ [])]
    simp [nlnl]

theorem joinSpace_head_ne_nil {f : Str} (hf : f ≠ []) (L : List Str) :
    joinSpace (f :: L) ≠ [] := by
  cases L with
  | nil => simpa [joinSpace] using hf
  | cons a as =>
    rw [joinSpace_cons_ne_nil _ (by simp : (a :: as) ≠ [])]
    simp

/-- Anatomy of `extract` on any document with at least one sentence unit:
the ranking is non-empty with some head `top`; the retained list is
non-empty, its head carrying the marker; and the result is `ok`, equal to
the space-join of the retained texts with the marker stripped. -/
theorem extract_anatomy (doc : Node) (minLen : Option Nat)
    (hne : get_sentence_xpath_tuples doc (build_text_finder minLen) ≠ []) :
    ∃ top rest,
      get_xpath_frequency_distribution
          ((get_sentence_xpath_tuples doc (build_text_finder minLen)).map
            Prod.snd) = top :: rest ∧
        ∃ f path frest, endsTerminal f = true ∧
          retainedPairs (get_sentence_xpath_tuples doc (build_text_finder minLen))
              top.1 = (nlnl ++ f, path) :: frest ∧
          extract doc minLen =
            Except.ok (joinSpace (f :: frest.map Prod.fst)) := by
  have hxne : (get_sentence_xpath_tuples doc (build_text_finder minLen)).map
      Prod.snd ≠ [] := by
    intro hc
    exact hne (List.map_eq_nil_iff.mp hc)
  have hdistne : get_xpath_frequency_distribution
      ((get_sentence_xpath_tuples doc (build_text_finder minLen)).map
        Prod.snd) ≠ [] := by
    unfold get_xpath_frequency_distribution most_common
    apply sortDesc_ne_nil
    intro hc
    rcases List.map_eq_nil_iff.mp hc with hfs
    exact firstSeen_ne_nil (fun hm => hxne (List.map_eq_nil_iff.mp hm)) hfs
  obtain ⟨top, rest, hdist⟩ := List.exists_cons_of_ne_nil hdistne
  refine ⟨top, rest, hdist, ?_⟩
  -- the top parent has a child address among the unit addresses
  have htopmem : top ∈ get_xpath_frequency_distribution
      ((get_sentence_xpath_tuples doc (build_text_finder minLen)).map
        Prod.snd) := by
    rw [hdist]; exact List.mem_cons_self _ _
  have htop := mem_most_common htopmem
  obtain ⟨x, hxmem, hxpar⟩ := List.mem_map.mp htop.1
  obtain ⟨pr, hprmem, hprx⟩ := List.mem_map.mp hxmem
  have hsub : isSubstr top.1 pr.2 = true := by
    rw [hprx, ← hxpar]
    exact isSubstr_parentpath x
  have hretne : retainedPairs
      (get_sentence_xpath_tuples doc (build_text_finder minLen)) top.1 ≠ [] := by
    intro hc
    have : pr ∈ retainedPairs
        (get_sentence_xpath_tuples doc (build_text_finder minLen)) top.1 :=
      List.mem_filter.mpr ⟨hprmem, hsub⟩
    rw [hc] at this
    simp at this
  have hana := flatMap_units_head (candidates doc (build_text_finder minLen)) top.1
  rw [← retainedPairs_flatMap] at hana
  rcases hana with hnil | ⟨f, path, frest, hf, heq⟩
  · exact absurd hnil hretne
  · have heq' : retainedPairs
        (get_sentence_xpath_tuples doc (build_text_finder minLen)) top.1 =
        (nlnl ++ f, path) :: frest := heq
    refine ⟨f, path, frest, hf, heq', ?_⟩
    show (match get_xpath_frequency_distribution
        ((get_sentence_xpath_tuples doc (build_text_finder minLen)).map
          Prod.snd) with
      | [] => Except.error PyError.indexError
      | top :: _ => Except.ok ((joinSpace ((retainedPairs
          (get_sentence_xpath_tuples doc (build_text_finder minLen))
          top.1).map Prod.fst)).drop 2)) =
      Except.ok (joinSpace (f :: frest.map Prod.fst))
    rw [hdist]
    show Except.ok ((joinSpace ((retainedPairs
        (get_sentence_xpath_tuples doc (build_text_finder minLen))
        top.1).map Prod.fst)).drop 2) =
      Except.ok (joinSpace (f :: frest.map Prod.fst))
    rw [heq']
    simp only [List.map_cons]
    rw [drop_two_joinSpace]

/-! ## Claim theorems: extract pipeline (C1, C2, C3, C6) -/

/-- C1 counterexample: in `exDoc1` the top-ranked parent is
`/html/body/div`, and the `divx` unit is retained (its address contains the
parent as a substring) although its address is not `/html/body/div` nor a
step-descendant of it — so retention is not equivalent to the prefix
relation on address steps. -/
theorem C1_counterexample :
    (get_xpath_frequency_distribution
        ((get_sentence_xpath_tuples exDoc1 (build_text_finder none)).map
          Prod.snd)).head? = some ("/html/body/div".toList, 2) ∧
      stepPre "/html/body/div".toList "/html/body/divx".toList = false ∧
      ("\n\nAn odd sibling sentence lives right here.".toList,
          "/html/body/divx".toList) ∈
        retainedPairs (get_sentence_xpath_tuples exDoc1 (build_text_finder none))
          "/html/body/div".toList := by decide

/-- C1 (amended): after the top parent `P` is ranked first, a sentence unit
is retained exactly when `P` occurs as a contiguous substring of its
address (Python's `max_path[0] in x`); address equality and step-descent
imply retention (but not conversely), and the output is the single-space
join of the retained texts in original order with the two leading marker
characters dropped. -/
theorem C1_retention_by_substring (doc : Node) (minLen : Option Nat)
    (hne : get_sentence_xpath_tuples doc (build_text_finder minLen) ≠ []) :
    ∃ top rest,
      get_xpath_frequency_distribution
          ((get_sentence_xpath_tuples doc (build_text_finder minLen)).map
            Prod.snd) = top :: rest ∧
        (∀ pr ∈ get_sentence_xpath_tuples doc (build_text_finder minLen),
          stepPre top.1 pr.2 = true →
            pr ∈ retainedPairs
              (get_sentence_xpath_tuples doc (build_text_finder minLen)) top.1) ∧
        retainedPairs (get_sentence_xpath_tuples doc (build_text_finder minLen))
            top.1 =
          (get_sentence_xpath_tuples doc (build_text_finder minLen)).filter
            (fun pr => isSubstr top.1 pr.2) ∧
        extract doc minLen = Except.ok
          ((joinSpace ((retainedPairs (get_sentence_xpath_tuples doc
            (build_text_finder minLen)) top.1).map Prod.fst)).drop 2) := by
  obtain ⟨top, rest, hdist, f, path, frest, hf, hret, hout⟩ :=
    extract_anatomy doc minLen hne
  refine ⟨top, rest, hdist, ?_, rfl, ?_⟩
  · intro pr hpr hstep
    exact List.mem_filter.mpr ⟨hpr, isSubstr_of_stepPre hstep⟩
  · rw [hout, hret]
    simp only [List.map_cons]
    rw [drop_two_joinSpace]

theorem C1_retention_by_substring_witness :
    get_sentence_xpath_tuples exDoc1 (build_text_finder none) ≠ [] ∧
      (∃ top rest,
        get_xpath_frequency_distribution
            ((get_sentence_xpath_tuples exDoc1 (build_text_finder none)).map
              Prod.snd) = top :: rest ∧
          (∀ pr ∈ get_sentence_xpath_tuples exDoc1 (build_text_finder none),
            stepPre top.1 pr.2 = true →
              pr ∈ retainedPairs
                (get_sentence_xpath_tuples exDoc1 (build_text_finder none))
                top.1) ∧
          retainedPairs (get_sentence_xpath_tuples exDoc1 (build_text_finder none))
              top.1 =
            (get_sentence_xpath_tuples exDoc1 (build_text_finder none)).filter
              (fun pr => isSubstr top.1 pr.2) ∧
          extract exDoc1 none = Except.ok
            ((joinSpace ((retainedPairs (get_sentence_xpath_tuples exDoc1
              (build_text_finder none)) top.1).map Prod.fst)).drop 2)) :=
  ⟨by decide, C1_retention_by_substring exDoc1 none (by decide)⟩

/-- C2 counterexample: on a document where no element passes the filter,
`extract` fails with the generic index error of `…[0]` on the empty
ranking; the source defines no dedicated EmptyExtractionError condition,
so the raised condition is not the distinguishable one the claim names. -/
theorem C2_counterexample :
    extract exDoc2 none = Except.error PyError.indexError ∧
      PyError.indexError ≠ PyError.emptyExtractionError :=
  ⟨by rfl, by decide⟩

/-- C2 (amended): for every document in which zero elements pass the
minimum-text-length filter, `extract` raises — it never silently returns an
empty string — but the raised condition is Python's generic `IndexError`
(from taking the head of the empty ranking), not a dedicated
EmptyExtractionError. -/
theorem C2_zero_candidates_index_error (doc : Node) (minLen : Option Nat)
    (h : candidates doc (build_text_finder minLen) = []) :
    extract doc minLen = Except.error PyError.indexError := by
  have hpairs : get_sentence_xpath_tuples doc (build_text_finder minLen) = [] := by
    unfold get_sentence_xpath_tuples
    rw [h]
    rfl
  show (match get_xpath_frequency_distribution
      ((get_sentence_xpath_tuples doc (build_text_finder minLen)).map
        Prod.snd) with
    | [] => Except.error PyError.indexError
    | top :: _ => Except.ok ((joinSpace ((retainedPairs
        (get_sentence_xpath_tuples doc (build_text_finder minLen))
        top.1).map Prod.fst)).drop 2)) = Except.error PyError.indexError
  rw [hpairs]
  rfl

theorem C2_zero_candidates_index_error_witness :
    candidates exDoc2 (build_text_finder none) = [] ∧
      extract exDoc2 none = Except.error PyError.indexError :=
  ⟨by decide, C2_zero_candidates_index_error exDoc2 none (by decide)⟩

/-- C3 counterexample: `exDoc3` has exactly one qualifying candidate
element, yet its text reaches no terminal character, so zero sentence
units are produced and `extract` raises (the index error) instead of
returning a non-empty string. -/
theorem C3_counterexample :
    (candidates exDoc3 (build_text_finder none)).length = 1 ∧
      extract exDoc3 none = Except.error PyError.indexError :=
  ⟨by decide, by rfl⟩

/-- C3 (amended): for every document whose qualifying candidates yield at
least one sentence unit, `extract` returns a non-empty string. -/
theorem C3_nonempty_on_units (doc : Node) (minLen : Option Nat)
    (hne : get_sentence_xpath_tuples doc (build_text_finder minLen) ≠ []) :
    ∃ out : Str, extract doc minLen = Except.ok out ∧ out ≠ [] := by
  obtain ⟨top, rest, hdist, f, path, frest, hf, hret, hout⟩ :=
    extract_anatomy doc minLen hne
  exact ⟨_, hout, joinSpace_head_ne_nil (endsTerminal_ne_nil hf) _⟩

theorem C3_nonempty_on_units_witness :
    get_sentence_xpath_tuples exDoc1 (build_text_finder none) ≠ [] ∧
      ∃ out : Str, extract exDoc1 none = Except.ok out ∧ out ≠ [] :=
  ⟨by decide, C3_nonempty_on_units exDoc1 none (by decide)⟩

/-- C6: the two-character paragraph-break marker is prepended to exactly
the first emitted fragment of each candidate (first conjunct: the shape of
every candidate's unit list), and the assembled string has no leading
separator: dropping the first two characters removes exactly the marker of
the first retained unit, so the result starts with that sentence's own
text (final conjunct). -/
theorem C6_marker_and_stripping (doc : Node) (minLen : Option Nat)
    (hne : get_sentence_xpath_tuples doc (build_text_finder minLen) ≠ []) :
    (∀ t : Str, unitsOf t =
      match segment t with
      | [] => []
      | f :: fs => (nlnl ++ f) :: fs) ∧
      ∃ top rest f path frest,
        get_xpath_frequency_distribution
            ((get_sentence_xpath_tuples doc (build_text_finder minLen)).map
              Prod.snd) = top :: rest ∧
          endsTerminal f = true ∧
          retainedPairs (get_sentence_xpath_tuples doc (build_text_finder minLen))
              top.1 = (nlnl ++ f, path) :: frest ∧
          extract doc minLen =
            Except.ok (joinSpace (f :: frest.map Prod.fst)) := by
  refine ⟨unitsOf_shape, ?_⟩
  obtain ⟨top, rest, hdist, f, path, frest, hf, hret, hout⟩ :=
    extract_anatomy doc minLen hne
  exact ⟨top, rest, f, path, frest, hdist, hf, hret, hout⟩

theorem C6_marker_and_stripping_witness :
    get_sentence_xpath_tuples exDoc1 (build_text_finder none) ≠ [] ∧
      ((∀ t : Str, unitsOf t =
        match segment t with
        | [] => []
        | f :: fs => (nlnl ++ f) :: fs) ∧
        ∃ top rest f path frest,
          get_xpath_frequency_distribution
              ((get_sentence_xpath_tuples exDoc1 (build_text_finder none)).map
                Prod.snd) = top :: rest ∧
            endsTerminal f = true ∧
            retainedPairs (get_sentence_xpath_tuples exDoc1
                (build_text_finder none)) top.1 = (nlnl ++ f, path) :: frest ∧
            extract exDoc1 none =
              Except.ok (joinSpace (f :: frest.map Prod.fst))) :=
  ⟨by decide, C6_marker_and_stripping exDoc1 none (by decide)⟩

/-! ## Claim theorems: the candidate query (C4, C10) -/

mutual
/-- Soundness of the per-element filter along the traversal: every
returned candidate is an element with a non-excluded tag and some single
direct text node longer than the threshold. -/
theorem mem_candsNode {thr : Nat} {under : Bool} {path : Str} {n : Node}
    {pr : Node × Str} (h : pr ∈ candsNode thr under path n) :
    ∃ t ch, pr.1 = Node.elem t ch ∧ excludedTag t = false ∧
      hasLongDirect thr ch = true := by
  match n with
  | .text s => simp [candsNode] at h
  | .elem t ch =>
    rw [candsNode, List.mem_append] at h
    rcases h with h | h
    · by_cases hcond : (under && !excludedTag t && hasLongDirect thr ch) = true
      · rw [if_pos hcond] at h
        simp only [List.mem_singleton] at h
        subst h
        simp only [Bool.and_eq_true, Bool.not_eq_true'] at hcond
        exact ⟨t, ch, rfl, hcond.1.2, hcond.2⟩
      · rw [if_neg hcond] at h
        simp at h
    · exact mem_candsSibs h
/-- Soundness of the per-element filter along the sibling traversal. -/
theorem mem_candsSibs {thr : Nat} {under : Bool} {pPath : Str}
    {prev : List Node} {l : List Node} {pr : Node × Str}
    (h : pr ∈ candsSibs thr under pPath prev l) :
    ∃ t ch, pr.1 = Node.elem t ch ∧ excludedTag t = false ∧
      hasLongDirect thr ch = true := by
  match l with
  | [] => simp [candsSibs] at h
  | .text s :: rest =>
    rw [candsSibs] at h
    exact mem_candsSibs h
  | .elem t ch :: rest =>
    rw [candsSibs, List.mem_append] at h
    rcases h with h | h
    · exact mem_candsNode h
    · exact mem_candsSibs h
end

/-- C4 counterexample: in `exDoc4` the `p` element's two direct text
segments have normalized lengths 16 each, so their concatenation (length
32) exceeds the default threshold, yet the code's query (which tests each
text node separately) selects nothing, while the query described by the
claim selects the `p`. -/
theorem C4_counterexample :
    (candidates exDoc4 (build_text_finder none)).length = 0 ∧
      (specCandidates exDoc4 (build_text_finder none)).map (fun c => c.2) =
        ["/html/body/p".toList] := by decide

mutual
/-- The candidate query equals the document pre-order enumeration of all
elements filtered by the per-element test: exactly those below a `body`,
with a non-excluded tag and some single long direct text node, in document
order. -/
theorem candsNode_eq_filter (thr : Nat) (under : Bool) (path : Str) :
    ∀ n : Node,
      candsNode thr under path n =
        ((allElemsNode under path n).filter (candTest thr)).map
          (fun e => (e.2.1, e.2.2))
  | .text _ => rfl
  | .elem t ch => by
    rw [candsNode, allElemsNode, List.filter_cons]
    by_cases hc : candTest thr (under, Node.elem t ch, path) = true
    · rw [if_pos hc, List.map_cons]
      have hcond : (under && !excludedTag t && hasLongDirect thr ch) = true := by
        simpa [candTest, Bool.and_assoc] using hc
      rw [if_pos hcond,
        candsSibs_eq_filter thr (under || t = "body") path [] ch]
      rfl
    · rw [if_neg hc]
      have hcond : ¬(under && !excludedTag t && hasLongDirect thr ch) = true := by
        intro h
        exact hc (by simpa [candTest, Bool.and_assoc] using h)
      rw [if_neg hcond,
        candsSibs_eq_filter thr (under || t = "body") path [] ch]
      rfl
/-- Sibling-list version of `candsNode_eq_filter`. -/
theorem candsSibs_eq_filter (thr : Nat) (under : Bool) (pPath : Str)
    (prev : List Node) :
    ∀ l : List Node,
      candsSibs thr under pPath prev l =
        ((allElemsSibs under pPath prev l).filter (candTest thr)).map
          (fun e => (e.2.1, e.2.2))
  | [] => rfl
  | .text s :: rest => by
    rw [candsSibs, allElemsSibs]
    exact candsSibs_eq_filter thr under pPath (prev ++ [Node.text s]) rest
  | .elem t ch :: rest => by
    rw [candsSibs, allElemsSibs, List.filter_append, List.map_append,
      candsNode_eq_filter thr under
        (pPath ++ '/' ::
          renderStep t (countTagIn t prev + 1)
            (countTagIn t prev + countTagIn t (.elem t ch :: rest)))
        (.elem t ch),
      candsSibs_eq_filter thr under pPath (prev ++ [Node.elem t ch]) rest]
end

/-- C4 (amended): the candidate query returns, in document (pre-)order,
exactly those elements lying below a `body` element whose own tag is not
one of {script, style, i, b, strong, span, a} and which have at least one
single immediate text node whose normalized length exceeds the threshold
— the query is the per-element filter of the document-order enumeration of
all elements, the length test being applied to each immediate text node
separately, not to the concatenation of all immediate text segments; the
threshold defaults to 20 and is configurable to any positive integer. -/
theorem C4_exact_query (doc : Node) (minLen : Option Nat) :
    candidates doc (build_text_finder minLen) =
      ((allElems doc).filter (candTest (build_text_finder minLen))).map
        (fun e => (e.2.1, e.2.2)) ∧
      build_text_finder none = 20 ∧
      (∀ n : Nat, 0 < n → build_text_finder (some n) = n) := by
  refine ⟨?_, rfl, fun n _ => rfl⟩
  unfold candidates allElems
  cases doc with
  | text s => rfl
  | elem t ch => exact candsNode_eq_filter _ _ _ _

theorem C4_exact_query_witness :
    (candidates exDoc1 (build_text_finder none) =
      ((allElems exDoc1).filter (candTest (build_text_finder none))).map
        (fun e => (e.2.1, e.2.2))) ∧
      build_text_finder none = 20 ∧
      (0 < 5 ∧ build_text_finder (some 5) = 5) :=
  ⟨(C4_exact_query exDoc1 none).1, (C4_exact_query exDoc1 none).2.1,
    by decide, (C4_exact_query exDoc1 none).2.2 5 (by decide)⟩

/-- C10 counterexample: in `exDoc10` two distinct direct text nodes of the
`p` each exceed the threshold, yet the candidate node list contains the
element once, not once per qualifying text node (XPath node-sets contain
no duplicates). -/
theorem C10_counterexample :
    (exP10.filter (isLongText (build_text_finder none))).length = 2 ∧
      (candidates exDoc10 (build_text_finder none)).length = 1 := by decide

mutual
/-- The address of every candidate found below a node extends that node's
own address. -/
theorem candsNode_path_le {thr : Nat} {under : Bool} {path : Str} {n : Node}
    {pr : Node × Str} (h : pr ∈ candsNode thr under path n) :
    path.length ≤ pr.2.length := by
  match n with
  | .text s => simp [candsNode] at h
  | .elem t ch =>
    rw [candsNode, List.mem_append] at h
    rcases h with h | h
    · by_cases hc : (under && !excludedTag t && hasLongDirect thr ch) = true
      · rw [if_pos hc] at h
        simp only [List.mem_singleton] at h
        subst h
        exact Nat.le_refl _
      · rw [if_neg hc] at h
        simp at h
    · exact Nat.le_of_lt (candsSibs_path_lt h)
theorem candsSibs_path_lt {thr : Nat} {under : Bool} {pPath : Str}
    {prev : List Node} {l : List Node} {pr : Node × Str}
    (h : pr ∈ candsSibs thr under pPath prev l) :
    pPath.length < pr.2.length := by
  match l with
  | [] => simp [candsSibs] at h
  | .text s :: rest =>
    rw [candsSibs] at h
    exact candsSibs_path_lt h
  | .elem t ch :: rest =>
    rw [candsSibs, List.mem_append] at h
    rcases h with h | h
    · have hle := candsNode_path_le h
      rw [List.length_append] at hle
      simp only [List.length_cons] at hle
      omega
    · exact candsSibs_path_lt h
end

/-- C10 (amended): for every element with two or more qualifying direct
text nodes, at any position in any document: its traversal step
contributes exactly one (element, address) pair to the candidate node
list when it lies below a `body` with a non-excluded tag (and none
otherwise) — never one pair per qualifying text node, and no descendant
entry duplicates it since descendant addresses are strictly longer; and
every entry of the frequency distribution tallies its parent address once
per sentence unit. -/
theorem C10_element_once (thr : Nat) (under : Bool) (path : Str)
    (t : String) (ch : List Node) (doc : Node) (pr : Str × Nat)
    (h2 : 2 ≤ (ch.filter (isLongText thr)).length)
    (hpr : pr ∈ get_xpath_frequency_distribution
      ((get_sentence_xpath_tuples doc thr).map Prod.snd)) :
    (candsNode thr under path (.elem t ch)).countP
        (fun c => decide (c = (Node.elem t ch, path))) =
      (if under && !excludedTag t then 1 else 0) ∧
      pr.2 = countOcc pr.1
        (((get_sentence_xpath_tuples doc thr).map Prod.snd).map parentpath) := by
  constructor
  · have hlong : hasLongDirect thr ch = true := by
      have hne : ch.filter (isLongText thr) ≠ [] := by
        intro hnil
        rw [hnil] at h2
        simp at h2
      obtain ⟨x, hx⟩ := List.exists_mem_of_ne_nil _ hne
      obtain ⟨hxch, hxp⟩ := List.mem_filter.mp hx
      exact List.any_eq_true.mpr ⟨x, hxch, hxp⟩
    rw [candsNode, hlong, List.countP_append]
    have hzero : (candsSibs thr (under || t = "body") path [] ch).countP
        (fun c => decide (c = (Node.elem t ch, path))) = 0 := by
      rw [List.countP_eq_zero]
      intro a ha
      simp only [decide_eq_true_eq]
      rintro rfl
      exact absurd (candsSibs_path_lt ha) (lt_irrefl _)
    rw [hzero]
    by_cases hu : (under && !excludedTag t) = true
    · rw [if_pos hu]
      rw [if_pos (by simp [hu] : (under && !excludedTag t && true) = true)]
      simp
    · rw [if_neg hu]
      rw [if_neg (by simp [hu] : ¬(under && !excludedTag t && true) = true)]
      simp
  · exact (mem_most_common hpr).2

theorem C10_element_once_witness :
    2 ≤ (exP10.filter (isLongText 20)).length ∧
      (("/html/body".toList, 2) ∈ get_xpath_frequency_distribution
        ((get_sentence_xpath_tuples exDoc10 20).map Prod.snd)) ∧
      ((candsNode 20 true "/html/body/p".toList (.elem "p" exP10)).countP
          (fun c => decide (c = (Node.elem "p" exP10, "/html/body/p".toList))) =
        (if true && !excludedTag "p" then 1 else 0) ∧
        (("/html/body".toList, 2) : Str × Nat).2 =
          countOcc (("/html/body".toList, 2) : Str × Nat).1
            (((get_sentence_xpath_tuples exDoc10 20).map Prod.snd).map
              parentpath)) :=
  ⟨by decide, by decide,
    C10_element_once 20 true "/html/body/p".toList "p" exP10 exDoc10
      ("/html/body".toList, 2) (by decide) (by decide)⟩

/-- Concrete corroboration of C10 on `exDoc10`: the element appears once,
its two sentence units once each, and the parent tallied twice (once per
unit). -/
theorem C10_element_deduplicated :
    (candidates exDoc10 (build_text_finder none)).map (fun c => c.2) =
        ["/html/body/p".toList] ∧
      (get_sentence_xpath_tuples exDoc10 (build_text_finder none)).length = 2 ∧
      get_xpath_frequency_distribution
          ((get_sentence_xpath_tuples exDoc10 (build_text_finder none)).map
            Prod.snd) = [("/html/body".toList, 2)] := by decide

end Eatiht
